import Mathlib

/-!
Shallow embedding of the Seedventure price-feed backend
(`backend/internal/service/price_service.go` together with the `models`
package). Prices and volumes (Go `float64`) are modelled as rationals;
timestamps (Go `int64`, milliseconds since the Unix epoch) as integers.
Randomness (`rand.Float64()` draws) and wall-clock reads (`time.Now()`)
are passed in as explicit parameters.
-/

namespace Seedventure

/-- The six supported granularities (`models.TimeFrame`). -/
inductive TimeFrame where
  | TimeFrame1Min
  | TimeFrame5Min
  | TimeFrame15Min
  | TimeFrame1Hour
  | TimeFrame4Hour
  | TimeFrame1Day
deriving DecidableEq, Repr, Fintype

/-- Bucket length of a timeframe in seconds. -/
def bucketSeconds : TimeFrame → Int
  | .TimeFrame1Min => 60
  | .TimeFrame5Min => 300
  | .TimeFrame15Min => 900
  | .TimeFrame1Hour => 3600
  | .TimeFrame4Hour => 14400
  | .TimeFrame1Day => 86400

/-- Models `TimeFrame.GetDuration`, in milliseconds (Go returns a
`time.Duration`; only its length matters here). -/
def GetDuration (tf : TimeFrame) : Int := 1000 * bucketSeconds tf

/-- Models `TimeFrame.NormalizeTimestamp`. The Go code converts the
millisecond timestamp to seconds with Go integer division (truncation
toward zero, `Int.tdiv`), decomposes the instant into calendar fields and
zeroes the sub-bucket fields. With the clock location taken as UTC, the
calendar decomposition of a Unix second count is floor-based, and zeroing
the sub-bucket fields is exactly flooring the second count to a multiple
of the bucket length (every bucket length divides 86400 and the epoch is
a day boundary), i.e. Euclidean division for the positive divisor. -/
def NormalizeTimestamp (tf : TimeFrame) (timestamp : Int) : Int :=
  1000 * (bucketSeconds tf * (timestamp.tdiv 1000 / bucketSeconds tf))

theorem bucketSeconds_pos (tf : TimeFrame) : 0 < bucketSeconds tf := by
  cases tf <;> decide

theorem tdiv_le_tdiv_of_le {a b n : Int} (hn : 0 < n) (h : a ≤ b) :
    a.tdiv n ≤ b.tdiv n := by
  rcases le_or_lt 0 a with ha | ha
  · rw [Int.tdiv_eq_ediv ha (le_of_lt hn), Int.tdiv_eq_ediv (le_trans ha h) (le_of_lt hn)]
    exact Int.ediv_le_ediv hn h
  · rcases le_or_lt 0 b with hb | hb
    · have h1 : a.tdiv n ≤ 0 := by
        have : (-a).tdiv n = -(a.tdiv n) := Int.neg_tdiv a n
        have hnn : 0 ≤ (-a).tdiv n :=
          Int.tdiv_nonneg (by omega) (le_of_lt hn)
        omega
      have h2 : 0 ≤ b.tdiv n := Int.tdiv_nonneg hb (le_of_lt hn)
      omega
    · have ha' : (0 : Int) ≤ -a := by omega
      have hb' : (0 : Int) ≤ -b := by omega
      have e1 : (-a).tdiv n = -(a.tdiv n) := Int.neg_tdiv a n
      have e2 : (-b).tdiv n = -(b.tdiv n) := Int.neg_tdiv b n
      have : (-b).tdiv n ≤ (-a).tdiv n := by
        rw [Int.tdiv_eq_ediv hb' (le_of_lt hn), Int.tdiv_eq_ediv ha' (le_of_lt hn)]
        exact Int.ediv_le_ediv hn (by omega)
      omega

theorem NormalizeTimestamp_mono (tf : TimeFrame) {x y : Int} (h : x ≤ y) :
    NormalizeTimestamp tf x ≤ NormalizeTimestamp tf y := by
  unfold NormalizeTimestamp
  have hb := bucketSeconds_pos tf
  have h1 : x.tdiv 1000 ≤ y.tdiv 1000 := tdiv_le_tdiv_of_le (by omega) h
  have h2 : x.tdiv 1000 / bucketSeconds tf ≤ y.tdiv 1000 / bucketSeconds tf :=
    Int.ediv_le_ediv hb h1
  have h3 : bucketSeconds tf * (x.tdiv 1000 / bucketSeconds tf) ≤
      bucketSeconds tf * (y.tdiv 1000 / bucketSeconds tf) :=
    mul_le_mul_of_nonneg_left h2 (le_of_lt hb)
  omega

theorem NormalizeTimestamp_idem (tf : TimeFrame) (x : Int) :
    NormalizeTimestamp tf (NormalizeTimestamp tf x) = NormalizeTimestamp tf x := by
  unfold NormalizeTimestamp
  have hb := bucketSeconds_pos tf
  have h1 : (1000 * (bucketSeconds tf * (x.tdiv 1000 / bucketSeconds tf))).tdiv 1000 =
      bucketSeconds tf * (x.tdiv 1000 / bucketSeconds tf) :=
    Int.mul_tdiv_cancel_left _ (by omega)
  rw [h1, Int.mul_ediv_cancel_left _ (by omega)]

/-- C5: for every supported granularity, `NormalizeTimestamp` is idempotent
(normalizing an already-normalized timestamp is the identity) and monotonic
(it preserves the order of timestamps). -/
theorem C5_NormalizeTimestamp_idem_mono (tf : TimeFrame) (x y : Int) :
    NormalizeTimestamp tf (NormalizeTimestamp tf x) = NormalizeTimestamp tf x ∧
    (x ≤ y → NormalizeTimestamp tf x ≤ NormalizeTimestamp tf y) :=
  ⟨NormalizeTimestamp_idem tf x, fun h => NormalizeTimestamp_mono tf h⟩

/-- Witness for C5 at a concrete timeframe and timestamps, with the
monotonicity hypothesis discharged. -/
theorem C5_witness :
    NormalizeTimestamp .TimeFrame5Min (NormalizeTimestamp .TimeFrame5Min 1234567) =
      NormalizeTimestamp .TimeFrame5Min 1234567 ∧
    (1234567 : Int) ≤ 2345678 ∧
    NormalizeTimestamp .TimeFrame5Min 1234567 ≤ NormalizeTimestamp .TimeFrame5Min 2345678 :=
  ⟨(C5_NormalizeTimestamp_idem_mono .TimeFrame5Min 1234567 2345678).1,
   by norm_num,
   (C5_NormalizeTimestamp_idem_mono .TimeFrame5Min 1234567 2345678).2 (by norm_num)⟩

/-- Models `models.CandleData`. The Go field `Values [4]float64` holds
`[open, high, low, close]`; it is modelled as the four named fields
`open_`, `high`, `low`, `close`. -/
structure CandleData where
  timestamp : Int
  open_ : ℚ
  high : ℚ
  low : ℚ
  close : ℚ
  isComplete : Bool
  volume : ℚ
deriving DecidableEq, Repr

/-- Models `models.UpdateMessage` (the Go field `Type` is `type_`). -/
structure UpdateMessage where
  type_ : String
  candle : CandleData
  timeFrame : TimeFrame
deriving DecidableEq, Repr

/-- Models Go `math.Round`: nearest integer, halves rounded away from zero. -/
def goRound (x : ℚ) : Int :=
  if 0 ≤ x then ⌊x + 1/2⌋ else -⌊-x + 1/2⌋

/-- The pervasive Go idiom `math.Round(x*100) / 100`: round to two decimals. -/
def round2 (x : ℚ) : ℚ := (goRound (x * 100) : ℚ) / 100

/-- Models the `service.PriceService` state that the claims are about:
the per-timeframe candle map, the mutable current candle and the capacity
bound. A Go map lookup miss is `none`. Locks, the client registry and the
data directory are omitted here (the subscriber registry is modelled
separately for the broadcast claim). -/
structure PriceService where
  timeFrameData : TimeFrame → Option (List CandleData)
  currentCandle : Option CandleData
  maxCandles : Nat

/-- Point update of the timeframe map (Go `ps.timeFrameData[tf] = v`). -/
def setTF (m : TimeFrame → Option (List CandleData)) (tf : TimeFrame)
    (v : List CandleData) : TimeFrame → Option (List CandleData) :=
  fun tf' => if tf' = tf then some v else m tf'

/-- Models `PriceService.StartNewCandle`. `nowMs` is `time.Now()` in
milliseconds; `rChange` and `rVolume` are the two `rand.Float64()` draws.
Returns the updated service and the broadcast "new" message. -/
def StartNewCandle (nowMs : Int) (rChange rVolume : ℚ) (ps : PriceService) :
    PriceService × UpdateMessage :=
  let lastInfo : ℚ × Int :=
    match ps.timeFrameData .TimeFrame1Min with
    | some (c :: cs) =>
      let last := (c :: cs).getLastD c
      (last.close, last.timestamp)
    | _ => (200, ((nowMs - 60000).tdiv 1000) * 1000)
  let open0 := round2 (lastInfo.1 + (rChange - 1/2) * 1)
  let open1 := if open0 < 1/100 then 1/100 else open0
  let ts0 := NormalizeTimestamp .TimeFrame1Min nowMs
  let ts := if ts0 ≤ lastInfo.2 then lastInfo.2 + 60000 else ts0
  let volume := (goRound (rVolume * 100) : ℚ) / 100
  let newCandle : CandleData :=
    ⟨ts, open1, open1, open1, open1, false, volume⟩
  ({ ps with currentCandle := some newCandle },
   ⟨"new", newCandle, .TimeFrame1Min⟩)

/-- Models `PriceService.UpdateCurrentCandle`. When no current candle
exists the Go code delegates to `StartNewCandle` (whose random draws are
`rStartChange`, `rStartVolume`); otherwise `rVolatility`, `rChange` and
`rVolInc` are the three `rand.Float64()` draws of the update path. -/
def UpdateCurrentCandle (nowMs : Int)
    (rStartChange rStartVolume rVolatility rChange rVolInc : ℚ)
    (ps : PriceService) : PriceService :=
  match ps.currentCandle with
  | none => (StartNewCandle nowMs rStartChange rStartVolume ps).1
  | some cur =>
    let volatility := rVolatility * 10
    let close0 := round2 (cur.close + (rChange - 1/2) * volatility)
    let close1 := if close0 < 1/100 then 1/100 else close0
    let high1 := if close1 > cur.high then close1 else cur.high
    let low1 := if close1 < cur.low then close1 else cur.low
    let cur' : CandleData :=
      { cur with high := high1, low := low1, close := close1,
                 volume := cur.volume + (goRound (rVolInc * 5) : ℚ) / 100 }
    { ps with currentCandle := some cur' }

/-- Replace the first list entry whose timestamp is `b` (the Go code
scans `ps.timeFrameData[tf]` for the first index with that timestamp and
mutates it in place). -/
def replaceFirstMatch (b : Int) (v : CandleData) : List CandleData → List CandleData
  | [] => []
  | c :: cs => if c.timestamp = b then v :: cs else c :: replaceFirstMatch b v cs

/-- Force-finalize the most recent series entry if it is still mutable
(the new-period branch of `updateHigherTimeframes`); returns the series
and the completed candle when one was completed. -/
def markLastComplete (l : List CandleData) : List CandleData × Option CandleData :=
  match l.getLast? with
  | none => (l, none)
  | some last =>
    if last.isComplete then (l, none)
    else (l.dropLast ++ [{ last with isComplete := true }],
          some { last with isComplete := true })

/-- The fresh bucket candle `updateHigherTimeframes` creates when no
entry exists for the normalized timestamp: seeded from the finalized
base candle's OHLC and volume, still mutable. -/
def seedCandle (tf : TimeFrame) (nc : CandleData) : CandleData :=
  ⟨NormalizeTimestamp tf nc.timestamp, nc.open_, nc.high, nc.low, nc.close,
   false, nc.volume⟩

/-- The in-place update `updateHigherTimeframes` applies to an existing
bucket candle: widen high/low, overwrite close, accumulate volume. -/
def mergeCandle (c nc : CandleData) : CandleData :=
  { c with
    high := if nc.high > c.high then nc.high else c.high,
    low := if nc.low < c.low then nc.low else c.low,
    close := nc.close,
    volume := c.volume + nc.volume }

/-- Models one iteration of the timeframe loop in
`PriceService.updateHigherTimeframes` for timeframe `tf`: the finalized
base candle `nc` is rolled into the series `data`. Returns the updated
series and the broadcast messages in emission order. -/
def aggStep (nowMs : Int) (maxCandles : Nat) (tf : TimeFrame)
    (nc : CandleData) (data : List CandleData) :
    List CandleData × List UpdateMessage :=
  let b := NormalizeTimestamp tf nc.timestamp
  match data.find? (fun c => c.timestamp == b) with
  | none =>
    let marked := markLastComplete data
    let data1 := marked.1 ++ [seedCandle tf nc]
    let data2 := if data1.length > maxCandles then data1.drop 1 else data1
    (data2,
     (match marked.2 with
      | some cd => [⟨"update", cd, tf⟩]
      | none => []) ++ [⟨"new", seedCandle tf nc, tf⟩])
  | some c =>
    let c1 := mergeCandle c nc
    let completes : Bool := nowMs > b + GetDuration tf && !c1.isComplete
    let c2 := if completes then { c1 with isComplete := true } else c1
    (replaceFirstMatch b c2 data,
     ⟨"update", c1, tf⟩ :: (if completes then [⟨"update", c2, tf⟩] else []))

/-- The five derived granularities, in the order the Go loop visits them. -/
def derivedTimeFrames : List TimeFrame :=
  [.TimeFrame5Min, .TimeFrame15Min, .TimeFrame1Hour, .TimeFrame4Hour, .TimeFrame1Day]

/-- Models `PriceService.updateHigherTimeframes` (broadcast messages are
emitted per timeframe by `aggStep` and dropped here). -/
def updateHigherTimeframes (nowMs : Int) (newCandle : CandleData)
    (ps : PriceService) : PriceService :=
  derivedTimeFrames.foldl
    (fun acc tf =>
      let data := (acc.timeFrameData tf).getD []
      { acc with
        timeFrameData :=
          setTF acc.timeFrameData tf (aggStep nowMs acc.maxCandles tf newCandle data).1 })
    ps

/-- Models `PriceService.FinalizeCurrentCandle` (the periodic
`SaveTimeFrame` call only touches the file system and is modelled with
the persistence gateway below). -/
def FinalizeCurrentCandle (nowMs : Int) (ps : PriceService) : PriceService :=
  match ps.currentCandle with
  | none => ps
  | some cur =>
    let finalCandle := { cur with isComplete := true }
    let base := (ps.timeFrameData .TimeFrame1Min).getD []
    let base1 := base ++ [finalCandle]
    let base2 := if base1.length > ps.maxCandles then base1.drop 1 else base1
    let ps1 : PriceService :=
      { ps with timeFrameData := setTF ps.timeFrameData .TimeFrame1Min base2 }
    let ps2 := updateHigherTimeframes nowMs finalCandle ps1
    { ps2 with currentCandle := none }

/-- Models the timeframe-aware `PriceService.GetHistoryForTimeFrame`
variant (the one taking `from`, `to` and `limit`): filter the series by
the optional time range, keep the most recent `limit` entries, and for
the base granularity append the current in-progress candle if any. `from`
is `from_` (Go keyword clash). -/
def GetHistoryForTimeFrame (ps : PriceService) (timeFrame : TimeFrame)
    (from_ to_ : Int) (limit : Int) : List CandleData :=
  match ps.timeFrameData timeFrame with
  | none => []
  | some candles =>
    let filtered :=
      if from_ > 0 ∨ to_ > 0 then
        candles.filter (fun c =>
          (decide (from_ ≤ 0) || decide (from_ ≤ c.timestamp)) &&
          (decide (to_ ≤ 0) || decide (c.timestamp ≤ to_)))
      else candles
    let limited :=
      if limit > 0 ∧ limit < (filtered.length : Int) then
        filtered.drop (filtered.length - limit.toNat)
      else filtered
    match timeFrame, ps.currentCandle with
    | .TimeFrame1Min, some cur => limited ++ [cur]
    | _, _ => limited

/-- Concrete service state for the history-range counterexample: one
stored base candle inside the query range and a current candle far
outside it. -/
def psHistoryEx : PriceService :=
  { timeFrameData :=
      setTF (fun _ => none) .TimeFrame1Min [⟨5000, 1, 1, 1, 1, true, 0⟩],
    currentCandle := some ⟨999999, 2, 2, 2, 2, false, 0⟩,
    maxCandles := 100 }

/-- C4 counterexample: with both bounds supplied (`from = 1`, `to =
10000`), the result of `GetHistoryForTimeFrame` for the base granularity
contains the appended current candle whose timestamp `999999` lies
outside the range, so the claim as stated is false. -/
theorem C4_counterexample :
    ¬ (∀ c ∈ GetHistoryForTimeFrame psHistoryEx .TimeFrame1Min 1 10000 0,
        1 ≤ c.timestamp ∧ c.timestamp ≤ 10000) := by
  decide

theorem mem_range_filter {from_ to_ : Int} (hfrom : 0 < from_) (hto : 0 < to_)
    {candles : List CandleData} {c : CandleData}
    (hc : c ∈ candles.filter (fun c =>
      (decide (from_ ≤ 0) || decide (from_ ≤ c.timestamp)) &&
      (decide (to_ ≤ 0) || decide (c.timestamp ≤ to_)))) :
    from_ ≤ c.timestamp ∧ c.timestamp ≤ to_ := by
  rw [List.mem_filter] at hc
  have h := hc.2
  simp only [Bool.and_eq_true, Bool.or_eq_true, decide_eq_true_eq] at h
  obtain ⟨h1 | h1, h2 | h2⟩ := h <;> omega

/-- C4 amended: when both bounds are positive, every candle returned by
`GetHistoryForTimeFrame` satisfies `from ≤ timestamp ≤ to`, except the
current in-progress candle that the base-granularity path appends after
filtering. -/
theorem C4_GetHistory_range (ps : PriceService) (tf : TimeFrame)
    (from_ to_ limit : Int) (hfrom : 0 < from_) (hto : 0 < to_) :
    ∀ c ∈ GetHistoryForTimeFrame ps tf from_ to_ limit,
      (from_ ≤ c.timestamp ∧ c.timestamp ≤ to_) ∨
      (tf = .TimeFrame1Min ∧ ps.currentCandle = some c) := by
  intro c hc
  unfold GetHistoryForTimeFrame at hc
  cases hdata : ps.timeFrameData tf with
  | none => rw [hdata] at hc; simp at hc
  | some candles =>
    rw [hdata] at hc
    dsimp only at hc
    rw [if_pos (Or.inl hfrom)] at hc
    have hlim :
        c ∈ (if limit > 0 ∧ limit < ((candles.filter (fun c =>
          (decide (from_ ≤ 0) || decide (from_ ≤ c.timestamp)) &&
          (decide (to_ ≤ 0) || decide (c.timestamp ≤ to_)))).length : Int) then
            (candles.filter (fun c =>
              (decide (from_ ≤ 0) || decide (from_ ≤ c.timestamp)) &&
              (decide (to_ ≤ 0) || decide (c.timestamp ≤ to_)))).drop
              ((candles.filter (fun c =>
                (decide (from_ ≤ 0) || decide (from_ ≤ c.timestamp)) &&
                (decide (to_ ≤ 0) || decide (c.timestamp ≤ to_)))).length - limit.toNat)
          else candles.filter (fun c =>
            (decide (from_ ≤ 0) || decide (from_ ≤ c.timestamp)) &&
            (decide (to_ ≤ 0) || decide (c.timestamp ≤ to_)))) →
        from_ ≤ c.timestamp ∧ c.timestamp ≤ to_ := by
      intro hx
      split at hx
      · exact mem_range_filter hfrom hto (List.mem_of_mem_drop hx)
      · exact mem_range_filter hfrom hto hx
    cases tf with
    | TimeFrame1Min =>
      cases hcur : ps.currentCandle with
      | none =>
        rw [hcur] at hc
        exact Or.inl (hlim hc)
      | some cur =>
        rw [hcur] at hc
        simp only [List.mem_append, List.mem_singleton] at hc
        rcases hc with hc | hc
        · exact Or.inl (hlim hc)
        · subst hc
          exact Or.inr ⟨rfl, rfl⟩
    | TimeFrame5Min => exact Or.inl (hlim hc)
    | TimeFrame15Min => exact Or.inl (hlim hc)
    | TimeFrame1Hour => exact Or.inl (hlim hc)
    | TimeFrame4Hour => exact Or.inl (hlim hc)
    | TimeFrame1Day => exact Or.inl (hlim hc)

/-- Witness for the amended C4 at the concrete counterexample state. -/
theorem C4_witness :
    (0 : Int) < 1 ∧ (0 : Int) < 10000 ∧
    ∀ c ∈ GetHistoryForTimeFrame psHistoryEx .TimeFrame1Min 1 10000 0,
      (1 ≤ c.timestamp ∧ c.timestamp ≤ 10000) ∨
      (TimeFrame.TimeFrame1Min = .TimeFrame1Min ∧ psHistoryEx.currentCandle = some c) :=
  ⟨by norm_num, by norm_num,
   C4_GetHistory_range psHistoryEx .TimeFrame1Min 1 10000 0 (by norm_num) (by norm_num)⟩

theorem clamp_ge (x : ℚ) : 1/100 ≤ (if x < 1/100 then 1/100 else x) := by
  split_ifs with h
  · exact le_refl _
  · exact le_of_not_lt h

theorem goRound_nonneg {x : ℚ} (h : 0 ≤ x) : 0 ≤ goRound x := by
  unfold goRound
  rw [if_pos h]
  exact Int.le_floor.mpr (by push_cast; linarith)

/-- C6: whatever the service state and whatever the random draws,
`UpdateCurrentCandle` leaves a current candle whose close is clamped to
at least 0.01; the price can never reach zero or go negative. (When no
current candle exists the call delegates to `StartNewCandle`, whose open
price — and hence close — is clamped the same way.) -/
theorem C6_close_floor (nowMs : Int)
    (rStartChange rStartVolume rVolatility rChange rVolInc : ℚ)
    (ps : PriceService) :
    ∃ c, (UpdateCurrentCandle nowMs rStartChange rStartVolume rVolatility
            rChange rVolInc ps).currentCandle = some c ∧
         1/100 ≤ c.close := by
  cases hcur : ps.currentCandle with
  | none =>
    simp only [UpdateCurrentCandle, hcur, StartNewCandle]
    exact ⟨_, rfl, clamp_ge _⟩
  | some cur =>
    simp only [UpdateCurrentCandle, hcur]
    exact ⟨_, rfl, clamp_ge _⟩

/-- C10: when a current candle exists, `UpdateCurrentCandle` keeps its
timestamp, open price and completeness flag unchanged, never decreases
its volume, and leaves the per-timeframe series untouched; only close,
high, low and volume can change. -/
theorem C10_UpdateCurrentCandle_frame (nowMs : Int)
    (rStartChange rStartVolume rVolatility rChange rVolInc : ℚ)
    (ps : PriceService) (cur : CandleData)
    (hcur : ps.currentCandle = some cur) (hr : 0 ≤ rVolInc) :
    ∃ cur', (UpdateCurrentCandle nowMs rStartChange rStartVolume rVolatility
               rChange rVolInc ps).currentCandle = some cur' ∧
      cur'.timestamp = cur.timestamp ∧
      cur'.open_ = cur.open_ ∧
      cur'.isComplete = cur.isComplete ∧
      cur.volume ≤ cur'.volume ∧
      (UpdateCurrentCandle nowMs rStartChange rStartVolume rVolatility
        rChange rVolInc ps).timeFrameData = ps.timeFrameData := by
  simp only [UpdateCurrentCandle, hcur]
  refine ⟨_, rfl, rfl, rfl, rfl, ?_, trivial⟩
  have h1 : (0 : Int) ≤ goRound (rVolInc * 5) := goRound_nonneg (by linarith)
  have h2 : (0 : ℚ) ≤ (goRound (rVolInc * 5) : ℚ) := by exact_mod_cast h1
  have h3 : (0 : ℚ) ≤ (goRound (rVolInc * 5) : ℚ) / 100 := by linarith
  linarith

/-- Witness for C10 at the concrete state `psHistoryEx` (whose current
candle exists) with the volume draw 0. -/
theorem C10_witness :
    psHistoryEx.currentCandle = some ⟨999999, 2, 2, 2, 2, false, 0⟩ ∧
    (0 : ℚ) ≤ 0 ∧
    ∃ cur', (UpdateCurrentCandle 0 0 0 0 0 0 psHistoryEx).currentCandle = some cur' ∧
      cur'.timestamp = (⟨999999, 2, 2, 2, 2, false, 0⟩ : CandleData).timestamp ∧
      cur'.open_ = (⟨999999, 2, 2, 2, 2, false, 0⟩ : CandleData).open_ ∧
      cur'.isComplete = (⟨999999, 2, 2, 2, 2, false, 0⟩ : CandleData).isComplete ∧
      (⟨999999, 2, 2, 2, 2, false, 0⟩ : CandleData).volume ≤ cur'.volume ∧
      (UpdateCurrentCandle 0 0 0 0 0 0 psHistoryEx).timeFrameData = psHistoryEx.timeFrameData :=
  ⟨rfl, le_refl 0,
   C10_UpdateCurrentCandle_frame 0 0 0 0 0 0 psHistoryEx _ rfl (le_refl 0)⟩

/-- Marking a candle complete (`currentCandle.IsComplete = true`). -/
def markComplete (c : CandleData) : CandleData := { c with isComplete := true }

/-- The append-and-evict step `FinalizeCurrentCandle` applies to the
base series: append, then drop the oldest entry when over capacity
(Go `data = append(data, c); if len(data) > maxCandles { data = data[1:] }`). -/
def appendTrim (maxC : Nat) (s : List CandleData) (c : CandleData) : List CandleData :=
  if (s ++ [c]).length > maxC then (s ++ [c]).drop 1 else s ++ [c]

/-- Successive finalizations: before each `FinalizeCurrentCandle` call
the current-candle slot is loaded with the next candle (as the ticker
does via `StartNewCandle`/`UpdateCurrentCandle`). -/
def finalizeMany (nowMs : Int) (ps : PriceService) (cs : List CandleData) : PriceService :=
  cs.foldl (fun acc c => FinalizeCurrentCandle nowMs { acc with currentCandle := some c }) ps

theorem updateHigherTimeframes_base (nowMs : Int) (c : CandleData) (ps : PriceService) :
    (updateHigherTimeframes nowMs c ps).timeFrameData .TimeFrame1Min =
      ps.timeFrameData .TimeFrame1Min := by
  simp [updateHigherTimeframes, derivedTimeFrames, setTF]

theorem updateHigherTimeframes_maxCandles (nowMs : Int) (c : CandleData) (ps : PriceService) :
    (updateHigherTimeframes nowMs c ps).maxCandles = ps.maxCandles := by
  simp [updateHigherTimeframes, derivedTimeFrames]

theorem updateHigherTimeframes_currentCandle (nowMs : Int) (c : CandleData) (ps : PriceService) :
    (updateHigherTimeframes nowMs c ps).currentCandle = ps.currentCandle := by
  simp [updateHigherTimeframes, derivedTimeFrames]

theorem FinalizeCurrentCandle_base (nowMs : Int) (ps : PriceService) (c : CandleData)
    (hcur : ps.currentCandle = some c) :
    (FinalizeCurrentCandle nowMs ps).timeFrameData .TimeFrame1Min =
      some (appendTrim ps.maxCandles ((ps.timeFrameData .TimeFrame1Min).getD [])
        (markComplete c)) := by
  simp only [FinalizeCurrentCandle, hcur]
  rw [updateHigherTimeframes_base]
  simp [setTF, appendTrim, markComplete]

theorem FinalizeCurrentCandle_maxCandles (nowMs : Int) (ps : PriceService) :
    (FinalizeCurrentCandle nowMs ps).maxCandles = ps.maxCandles := by
  unfold FinalizeCurrentCandle
  cases hcur : ps.currentCandle with
  | none => rfl
  | some c => simp only []; rw [updateHigherTimeframes_maxCandles]

theorem foldl_appendTrim_step (C : Nat) (p : List CandleData) (c : CandleData) :
    appendTrim C (p.drop (p.length - C)) c =
      (p ++ [c]).drop ((p ++ [c]).length - C) := by
  unfold appendTrim
  rcases le_or_lt p.length C with hle | hgt
  · rw [Nat.sub_eq_zero_of_le hle, List.drop_zero]
    rcases eq_or_lt_of_le hle with heq | hlt
    · rw [if_pos (by simp [heq])]
      simp [heq]
    · rw [if_neg (by simp; omega)]
      have : (p ++ [c]).length - C = 0 := by simp; omega
      rw [this, List.drop_zero]
  · have hlen : (p.drop (p.length - C)).length = C := by
      rw [List.length_drop]; omega
    rw [if_pos (by simp [hlen])]
    rcases Nat.eq_zero_or_pos C with hC | hC
    · subst hC
      simp only [Nat.sub_zero] at hlen ⊢
      have h1 : p.drop p.length = [] := by
        apply List.eq_nil_of_length_eq_zero
        rw [List.length_drop]; omega
      rw [h1]
      simp [List.drop_length]
    · have h1 : (1 : Nat) ≤ (p.drop (p.length - C)).length := by omega
      rw [List.drop_append_of_le_length h1, List.drop_drop]
      have hidx : (p ++ [c]).length - C = p.length - C + 1 := by
        rw [List.length_append]
        simp
        omega
      rw [hidx]
      have h2 : p.length - C + 1 ≤ p.length := by omega
      rw [List.drop_append_of_le_length h2]

theorem foldl_appendTrim (C : Nat) :
    ∀ (cs p : List CandleData),
      cs.foldl (appendTrim C) (p.drop (p.length - C)) =
        (p ++ cs).drop ((p ++ cs).length - C) := by
  intro cs
  induction cs with
  | nil => intro p; simp
  | cons c cs ih =>
    intro p
    have h1 : List.foldl (appendTrim C) (p.drop (p.length - C)) (c :: cs) =
        List.foldl (appendTrim C) ((p ++ [c]).drop ((p ++ [c]).length - C)) cs := by
      rw [List.foldl_cons, foldl_appendTrim_step]
    rw [h1, ih (p ++ [c])]
    simp

theorem finalizeMany_base (nowMs : Int) (C : Nat) :
    ∀ (cs : List CandleData) (ps : PriceService) (base : List CandleData),
      ps.maxCandles = C →
      ps.timeFrameData .TimeFrame1Min = some base →
      (finalizeMany nowMs ps cs).timeFrameData .TimeFrame1Min =
        some (cs.foldl (fun s c => appendTrim C s (markComplete c)) base) ∧
      (finalizeMany nowMs ps cs).maxCandles = C := by
  intro cs
  induction cs with
  | nil =>
    intro ps base hmax hbase
    exact ⟨hbase, hmax⟩
  | cons c cs ih =>
    intro ps base hmax hbase
    have hstep1 :
        (FinalizeCurrentCandle nowMs { ps with currentCandle := some c }).timeFrameData
          .TimeFrame1Min = some (appendTrim C base (markComplete c)) := by
      rw [FinalizeCurrentCandle_base nowMs _ c rfl]
      simp only []
      rw [hbase, hmax]
      rfl
    have hstep2 :
        (FinalizeCurrentCandle nowMs { ps with currentCandle := some c }).maxCandles = C := by
      rw [FinalizeCurrentCandle_maxCandles]
      exact hmax
    have := ih (FinalizeCurrentCandle nowMs { ps with currentCandle := some c })
      (appendTrim C base (markComplete c)) hstep2 hstep1
    exact this

/-- C3: starting from an empty base series with capacity 100, after any
number N > 100 of successive finalizations the base series holds exactly
the 100 most recently finalized candles (the older ones evicted first),
its length is exactly 100, and along the way the length never exceeds
100. -/
theorem C3_bounded_history (nowMs : Int) (ps : PriceService) (cs : List CandleData)
    (hmax : ps.maxCandles = 100)
    (hbase : ps.timeFrameData .TimeFrame1Min = some [])
    (hlen : 100 < cs.length) :
    (finalizeMany nowMs ps cs).timeFrameData .TimeFrame1Min =
      some ((cs.map markComplete).drop (cs.length - 100)) ∧
    (∀ l, (finalizeMany nowMs ps cs).timeFrameData .TimeFrame1Min = some l →
      l.length = 100) ∧
    (∀ n l, (finalizeMany nowMs ps (cs.take n)).timeFrameData .TimeFrame1Min = some l →
      l.length ≤ 100) := by
  have key : ∀ (ds : List CandleData),
      (finalizeMany nowMs ps ds).timeFrameData .TimeFrame1Min =
        some ((ds.map markComplete).drop ((ds.map markComplete).length - 100)) := by
    intro ds
    have h := (finalizeMany_base nowMs 100 ds ps [] hmax hbase).1
    rw [h]
    congr 1
    have h2 : List.foldl (fun s c => appendTrim 100 s (markComplete c)) [] ds =
        List.foldl (appendTrim 100) [] (ds.map markComplete) := by
      rw [List.foldl_map]
    rw [h2]
    have h3 : ([] : List CandleData) =
        ([] : List CandleData).drop (([] : List CandleData).length - 100) := rfl
    rw [h3, foldl_appendTrim 100 (ds.map markComplete) []]
    simp
  refine ⟨?_, ?_, ?_⟩
  · rw [key cs]; simp
  · intro l hl
    rw [key cs] at hl
    have : l = (cs.map markComplete).drop ((cs.map markComplete).length - 100) :=
      Option.some.inj hl.symm
    rw [this, List.length_drop]
    simp
    omega
  · intro n l hl
    rw [key (cs.take n)] at hl
    have : l = ((cs.take n).map markComplete).drop
        (((cs.take n).map markComplete).length - 100) :=
      Option.some.inj hl.symm
    rw [this, List.length_drop]
    omega

/-- Concrete service state and candles for the bounded-history witness. -/
def psEmptyBase : PriceService :=
  { timeFrameData := setTF (fun _ => none) .TimeFrame1Min [],
    currentCandle := none,
    maxCandles := 100 }

/-- Simple candle at an integer timestamp, used by concrete witnesses. -/
def simpleCandle (i : Nat) : CandleData := ⟨Int.ofNat i, 1, 1, 1, 1, false, 0⟩

/-- 101 distinct candles to overflow the capacity of 100. -/
def csOverflow : List CandleData := (List.range 101).map simpleCandle

theorem csOverflow_length : csOverflow.length = 101 := by
  unfold csOverflow
  rw [List.length_map, List.length_range]

/-- Witness for C3: 101 finalizations against capacity 100. -/
theorem C3_witness :
    psEmptyBase.maxCandles = 100 ∧
    psEmptyBase.timeFrameData .TimeFrame1Min = some [] ∧
    100 < csOverflow.length ∧
    ((finalizeMany 0 psEmptyBase csOverflow).timeFrameData .TimeFrame1Min =
      some ((csOverflow.map markComplete).drop (csOverflow.length - 100)) ∧
    (∀ l, (finalizeMany 0 psEmptyBase csOverflow).timeFrameData .TimeFrame1Min = some l →
      l.length = 100) ∧
    (∀ n l, (finalizeMany 0 psEmptyBase (csOverflow.take n)).timeFrameData
        .TimeFrame1Min = some l → l.length ≤ 100)) :=
  ⟨rfl, rfl, by rw [csOverflow_length]; norm_num,
   C3_bounded_history 0 psEmptyBase csOverflow rfl rfl (by rw [csOverflow_length]; norm_num)⟩

theorem replaceFirstMatch_find? {b : Int} {v : CandleData} (hv : v.timestamp = b) :
    ∀ {l : List CandleData} {c : CandleData},
      l.find? (fun x => x.timestamp == b) = some c →
      (replaceFirstMatch b v l).find? (fun x => x.timestamp == b) = some v := by
  intro l
  induction l with
  | nil => intro c h; simp at h
  | cons a as ih =>
    intro c h
    by_cases ha : a.timestamp = b
    · rw [replaceFirstMatch, if_pos ha]
      simp [List.find?_cons, hv]
    · rw [replaceFirstMatch, if_neg ha]
      rw [List.find?_cons_of_neg _ (by simp [ha])] at h ⊢
      exact ih h

theorem find?_no_match_append {p : CandleData → Bool} :
    ∀ {l1 : List CandleData} (l2 : List CandleData),
      (∀ x ∈ l1, ¬ p x = true) → (l1 ++ l2).find? p = l2.find? p := by
  intro l1
  induction l1 with
  | nil => intro l2 _; rfl
  | cons a as ih =>
    intro l2 h
    rw [List.cons_append, List.find?_cons_of_neg _ (h a (by simp))]
    exact ih l2 (fun x hx => h x (by simp [hx]))

theorem mem_markLastComplete {l : List CandleData} {x : CandleData}
    (hx : x ∈ (markLastComplete l).1) :
    x ∈ l ∨ ∃ y, y ∈ l ∧ x = { y with isComplete := true } := by
  unfold markLastComplete at hx
  cases hl : l.getLast? with
  | none => rw [hl] at hx; exact Or.inl hx
  | some last =>
    rw [hl] at hx
    dsimp only at hx
    by_cases hc : last.isComplete
    · rw [if_pos hc] at hx; exact Or.inl hx
    · rw [if_neg hc] at hx
      simp only [List.mem_append, List.mem_singleton] at hx
      rcases hx with hx | hx
      · exact Or.inl (List.dropLast_subset l hx)
      · exact Or.inr ⟨last, List.mem_of_getLast?_eq_some hl, hx⟩

theorem mergeCandle_high (c nc : CandleData) :
    (mergeCandle c nc).high = max c.high nc.high := by
  unfold mergeCandle
  simp only []
  split_ifs with h
  · exact (max_eq_right (le_of_lt h)).symm
  · exact (max_eq_left (not_lt.1 h)).symm

theorem mergeCandle_low (c nc : CandleData) :
    (mergeCandle c nc).low = min c.low nc.low := by
  unfold mergeCandle
  simp only []
  split_ifs with h
  · exact (min_eq_right (le_of_lt h)).symm
  · exact (min_eq_left (not_lt.1 h)).symm

theorem aggStep_found (nowMs : Int) (maxC : Nat) (tf : TimeFrame)
    (nc : CandleData) (data : List CandleData) (c : CandleData)
    (hfind : data.find? (fun x => x.timestamp == NormalizeTimestamp tf nc.timestamp) = some c) :
    ∃ c2, (aggStep nowMs maxC tf nc data).1 =
        replaceFirstMatch (NormalizeTimestamp tf nc.timestamp) c2 data ∧
      c2.timestamp = c.timestamp ∧
      c2.open_ = c.open_ ∧
      c2.high = max c.high nc.high ∧
      c2.low = min c.low nc.low ∧
      c2.close = nc.close ∧
      c2.volume = c.volume + nc.volume := by
  simp only [aggStep, hfind]
  by_cases hcompl : (nowMs > NormalizeTimestamp tf nc.timestamp + GetDuration tf
      && !(mergeCandle c nc).isComplete) = true
  · refine ⟨{ mergeCandle c nc with isComplete := true }, ?_, ?_, ?_, ?_, ?_, ?_, ?_⟩
    · rw [if_pos hcompl]
    · simp [mergeCandle]
    · simp [mergeCandle]
    · simp only []
      exact mergeCandle_high c nc
    · simp only []
      exact mergeCandle_low c nc
    · simp [mergeCandle]
    · simp [mergeCandle]
  · refine ⟨mergeCandle c nc, ?_, ?_, ?_, ?_, ?_, ?_, ?_⟩
    · rw [if_neg hcompl]
    · simp [mergeCandle]
    · simp [mergeCandle]
    · exact mergeCandle_high c nc
    · exact mergeCandle_low c nc
    · simp [mergeCandle]
    · simp [mergeCandle]

theorem aggStep_loop (nowMs : Int) (maxC : Nat) (tf : TimeFrame) (b : Int) :
    ∀ (rest data : List CandleData) (cd : CandleData),
      data.find? (fun c => c.timestamp == b) = some cd →
      (∀ c ∈ rest, NormalizeTimestamp tf c.timestamp = b) →
      ∃ cd', (rest.foldl (fun d c => (aggStep nowMs maxC tf c d).1) data).find?
          (fun c => c.timestamp == b) = some cd' ∧
        cd'.open_ = cd.open_ ∧
        cd'.high = rest.foldl (fun a c => max a c.high) cd.high ∧
        cd'.low = rest.foldl (fun a c => min a c.low) cd.low ∧
        cd'.close = (rest.map CandleData.close).getLastD cd.close ∧
        cd'.volume = cd.volume + (rest.map CandleData.volume).sum := by
  intro rest
  induction rest with
  | nil =>
    intro data cd hfind _
    exact ⟨cd, hfind, rfl, rfl, rfl, rfl, by simp⟩
  | cons r rs ih =>
    intro data cd hfind hall
    have hr : NormalizeTimestamp tf r.timestamp = b := hall r (by simp)
    have hfind' : data.find?
        (fun c => c.timestamp == NormalizeTimestamp tf r.timestamp) = some cd := by
      rw [hr]; exact hfind
    obtain ⟨c2, hres, hts, hopen, hhigh, hlow, hclose, hvol⟩ :=
      aggStep_found nowMs maxC tf r data cd hfind'
    have hcdts : cd.timestamp = b := by
      have := List.find?_some hfind
      simpa using this
    have hc2b : c2.timestamp = b := by rw [hts, hcdts]
    have hfind2 : ((aggStep nowMs maxC tf r data).1).find?
        (fun c => c.timestamp == b) = some c2 := by
      rw [hres, hr]
      exact replaceFirstMatch_find? hc2b hfind
    obtain ⟨cd', h1, h2, h3, h4, h5, h6⟩ :=
      ih ((aggStep nowMs maxC tf r data).1) c2 hfind2 (fun c hc => hall c (by simp [hc]))
    refine ⟨cd', by simpa using h1, ?_, ?_, ?_, ?_, ?_⟩
    · rw [h2, hopen]
    · rw [List.foldl_cons, h3, hhigh]
    · rw [List.foldl_cons, h4, hlow]
    · rw [List.map_cons, List.getLastD_cons, h5, hclose]
    · rw [List.map_cons, List.sum_cons, h6, hvol]
      ring

theorem aggStep_create (nowMs : Int) (maxC : Nat) (hmaxC : 0 < maxC) (tf : TimeFrame)
    (nc : CandleData) (data : List CandleData)
    (hfind : data.find?
      (fun c => c.timestamp == NormalizeTimestamp tf nc.timestamp) = none) :
    (aggStep nowMs maxC tf nc data).1.find?
        (fun c => c.timestamp == NormalizeTimestamp tf nc.timestamp) =
      some (seedCandle tf nc) := by
  simp only [aggStep, hfind]
  have hno : ∀ x ∈ data,
      ¬((x.timestamp == NormalizeTimestamp tf nc.timestamp) = true) :=
    List.find?_eq_none.1 hfind
  have hnoM : ∀ x ∈ (markLastComplete data).1,
      ¬((x.timestamp == NormalizeTimestamp tf nc.timestamp) = true) := by
    intro x hx
    rcases mem_markLastComplete hx with h | ⟨y, hy, rfl⟩
    · exact hno x h
    · intro hbeq
      exact hno y hy (by simpa using hbeq)
  by_cases hlen :
      ((markLastComplete data).1 ++ [seedCandle tf nc]).length > maxC
  · rw [if_pos hlen]
    have hne : (markLastComplete data).1 ≠ [] := by
      intro hnil
      rw [hnil] at hlen
      simp at hlen
      omega
    have h1 : (1 : Nat) ≤ (markLastComplete data).1.length := by
      rcases h : (markLastComplete data).1 with _ | ⟨a, as⟩
      · exact absurd h hne
      · simp
    rw [List.drop_append_of_le_length h1]
    rw [find?_no_match_append _ (fun x hx => hnoM x (List.mem_of_mem_drop hx))]
    simp [List.find?_cons, seedCandle]
  · rw [if_neg hlen]
    rw [find?_no_match_append _ hnoM]
    simp [List.find?_cons, seedCandle]

/-- C1: for a derived granularity, rolling a sequence of finalized base
candles that all normalize to the same bucket through the aggregation
engine, in order and starting from a series with no entry for that
bucket, leaves the bucket's candle with the first candle's open, the
running maximum of highs, the running minimum of lows, the last candle's
close and the sum of the volumes. -/
theorem C1_aggregate_bucket (nowMs : Int) (maxC : Nat) (tf : TimeFrame)
    (init : List CandleData) (c0 : CandleData) (rest : List CandleData)
    (hmaxC : 0 < maxC)
    (hinit : ∀ c ∈ init, c.timestamp ≠ NormalizeTimestamp tf c0.timestamp)
    (hrest : ∀ c ∈ rest,
      NormalizeTimestamp tf c.timestamp = NormalizeTimestamp tf c0.timestamp) :
    ∃ cd, ((c0 :: rest).foldl (fun d c => (aggStep nowMs maxC tf c d).1) init).find?
        (fun c => c.timestamp == NormalizeTimestamp tf c0.timestamp) = some cd ∧
      cd.open_ = c0.open_ ∧
      cd.high = rest.foldl (fun a c => max a c.high) c0.high ∧
      cd.low = rest.foldl (fun a c => min a c.low) c0.low ∧
      cd.close = (rest.map CandleData.close).getLastD c0.close ∧
      cd.volume = c0.volume + (rest.map CandleData.volume).sum := by
  have hfind0 : init.find?
      (fun c => c.timestamp == NormalizeTimestamp tf c0.timestamp) = none :=
    List.find?_eq_none.2 (fun x hx => by simpa using hinit x hx)
  have hcreate := aggStep_create nowMs maxC hmaxC tf c0 init hfind0
  rw [List.foldl_cons]
  obtain ⟨cd', h1, h2, h3, h4, h5, h6⟩ :=
    aggStep_loop nowMs maxC tf (NormalizeTimestamp tf c0.timestamp) rest
      ((aggStep nowMs maxC tf c0 init).1) (seedCandle tf c0) hcreate hrest
  exact ⟨cd', h1, h2, h3, h4, h5, h6⟩

/-- First witness candle: first minute of the 5-minute bucket at 0. -/
def candleA : CandleData := ⟨0, 10, 12, 9, 11, true, 3⟩

/-- Second witness candle: second minute of the same 5-minute bucket. -/
def candleB : CandleData := ⟨60000, 11, 15, 8, 14, true, 2⟩

/-- Witness for C1: two base candles in one 5-minute bucket. -/
theorem C1_witness :
    (0 : Nat) < 100 ∧
    (∀ c ∈ ([] : List CandleData),
      c.timestamp ≠ NormalizeTimestamp .TimeFrame5Min candleA.timestamp) ∧
    (∀ c ∈ [candleB],
      NormalizeTimestamp .TimeFrame5Min c.timestamp =
        NormalizeTimestamp .TimeFrame5Min candleA.timestamp) ∧
    ∃ cd, (([candleA, candleB]).foldl
        (fun d c => (aggStep 0 100 .TimeFrame5Min c d).1) []).find?
        (fun c => c.timestamp == NormalizeTimestamp .TimeFrame5Min candleA.timestamp) =
          some cd ∧
      cd.open_ = candleA.open_ ∧
      cd.high = [candleB].foldl (fun a c => max a c.high) candleA.high ∧
      cd.low = [candleB].foldl (fun a c => min a c.low) candleA.low ∧
      cd.close = ([candleB].map CandleData.close).getLastD candleA.close ∧
      cd.volume = candleA.volume + ([candleB].map CandleData.volume).sum :=
  ⟨by norm_num, by simp, by decide,
   C1_aggregate_bucket 0 100 .TimeFrame5Min [] candleA [candleB]
     (by norm_num) (by simp) (by decide)⟩

/-- The per-series shape invariant of the spec: every candle except
possibly the most recent one is complete (equivalently: at most one
candle is mutable and it is the last). -/
def SeriesInv (l : List CandleData) : Prop :=
  ∀ c ∈ l.dropLast, c.isComplete = true

theorem mem_dropLast_replaceFirstMatch {b : Int} {v : CandleData} :
    ∀ {l : List CandleData} {x : CandleData},
      x ∈ (replaceFirstMatch b v l).dropLast →
      x ∈ l.dropLast ∨ (x = v ∧ ∃ y ∈ l.dropLast, y.timestamp = b) := by
  intro l
  induction l with
  | nil => intro x hx; simp [replaceFirstMatch] at hx
  | cons a as ih =>
    intro x hx
    by_cases ha : a.timestamp = b
    · rw [replaceFirstMatch, if_pos ha] at hx
      cases as with
      | nil => simp at hx
      | cons a2 as2 =>
        rw [List.dropLast_cons_of_ne_nil (by simp)] at hx
        rcases List.mem_cons.1 hx with rfl | hx2
        · right
          refine ⟨rfl, a, ?_, ha⟩
          rw [List.dropLast_cons_of_ne_nil (by simp)]
          simp
        · left
          rw [List.dropLast_cons_of_ne_nil (by simp)]
          simp [hx2]
    · rw [replaceFirstMatch, if_neg ha] at hx
      cases as with
      | nil => simp [replaceFirstMatch] at hx
      | cons a2 as2 =>
        have hne : replaceFirstMatch b v (a2 :: as2) ≠ [] := by
          rw [replaceFirstMatch]
          split <;> simp
        rw [List.dropLast_cons_of_ne_nil hne] at hx
        rcases List.mem_cons.1 hx with rfl | hx2
        · left
          rw [List.dropLast_cons_of_ne_nil (by simp)]
          simp
        · rcases ih hx2 with h | ⟨hxv, y, hy, hyb⟩
          · left
            rw [List.dropLast_cons_of_ne_nil (by simp)]
            exact List.mem_cons.2 (Or.inr h)
          · right
            refine ⟨hxv, y, ?_, hyb⟩
            rw [List.dropLast_cons_of_ne_nil (by simp)]
            exact List.mem_cons.2 (Or.inr hy)

theorem find?_incomplete_excludes {b : Int} :
    ∀ {l : List CandleData} {c : CandleData},
      (∀ y ∈ l.dropLast, y.isComplete = true) →
      l.find? (fun x => x.timestamp == b) = some c →
      c.isComplete = false →
      ∀ y ∈ l.dropLast, ¬(y.timestamp = b) := by
  intro l
  induction l with
  | nil => intro c _ h; simp at h
  | cons a as ih =>
    intro c hinv hfind hc
    by_cases ha : a.timestamp = b
    · rw [List.find?_cons_of_pos _ (by simp [ha])] at hfind
      injection hfind with heq
      subst heq
      cases as with
      | nil => intro y hy; simp at hy
      | cons a2 as2 =>
        exfalso
        have hcompl : a.isComplete = true := by
          refine hinv a ?_
          rw [List.dropLast_cons_of_ne_nil (by simp)]
          simp
        rw [hcompl] at hc
        exact absurd hc (by decide)
    · rw [List.find?_cons_of_neg _ (by simp [ha])] at hfind
      cases as with
      | nil => intro y hy; simp at hy
      | cons a2 as2 =>
        intro y hy
        rw [List.dropLast_cons_of_ne_nil (by simp)] at hy
        rcases List.mem_cons.1 hy with rfl | hy2
        · exact ha
        · refine ih ?_ hfind hc y hy2
          intro z hz
          refine hinv z ?_
          rw [List.dropLast_cons_of_ne_nil (by simp)]
          exact List.mem_cons.2 (Or.inr hz)

theorem markLastComplete_all {l : List CandleData}
    (hinv : ∀ c ∈ l.dropLast, c.isComplete = true) :
    ∀ c ∈ (markLastComplete l).1, c.isComplete = true := by
  intro c hc
  unfold markLastComplete at hc
  cases hl : l.getLast? with
  | none =>
    rw [hl] at hc
    rw [List.getLast?_eq_none_iff] at hl
    subst hl
    simp at hc
  | some last =>
    rw [hl] at hc
    dsimp only at hc
    by_cases hcl : last.isComplete
    · rw [if_pos hcl] at hc
      have hl2 : l.dropLast ++ [last] = l :=
        List.dropLast_append_getLast? last (by rw [Option.mem_def]; exact hl)
      rw [← hl2] at hc
      rcases List.mem_append.1 hc with h | h
      · exact hinv c h
      · simp at h
        subst h
        exact hcl
    · rw [if_neg hcl] at hc
      rcases List.mem_append.1 hc with h | h
      · exact hinv c h
      · simp at h
        subst h
        rfl

theorem mem_dropLast_drop_one {l : List CandleData} {x : CandleData}
    (hx : x ∈ (l.drop 1).dropLast) : x ∈ l.dropLast := by
  cases l with
  | nil => simp at hx
  | cons a as =>
    have hx' : x ∈ as.dropLast := hx
    cases as with
    | nil => simp at hx'
    | cons b bs =>
      rw [List.dropLast_cons_of_ne_nil (by simp)]
      exact List.mem_cons.2 (Or.inr hx')

theorem aggStep_SeriesInv (nowMs : Int) (maxC : Nat) (tf : TimeFrame)
    (nc : CandleData) (data : List CandleData) (hinv : SeriesInv data) :
    SeriesInv (aggStep nowMs maxC tf nc data).1 := by
  unfold SeriesInv at *
  cases hfind : data.find?
      (fun c => c.timestamp == NormalizeTimestamp tf nc.timestamp) with
  | none =>
    simp only [aggStep, hfind]
    have hall := markLastComplete_all hinv
    by_cases hlen :
        ((markLastComplete data).1 ++ [seedCandle tf nc]).length > maxC
    · rw [if_pos hlen]
      intro c hc
      have hc2 := mem_dropLast_drop_one hc
      rw [List.dropLast_concat] at hc2
      exact hall c hc2
    · rw [if_neg hlen]
      intro c hc
      rw [List.dropLast_concat] at hc
      exact hall c hc
  | some c0 =>
    simp only [aggStep, hfind]
    intro x hx
    rcases mem_dropLast_replaceFirstMatch hx with h | ⟨rfl, y, hy, hyb⟩
    · exact hinv x h
    · by_cases hc0 : c0.isComplete
      · simp [mergeCandle, hc0]
      · exact absurd hyb
          (find?_incomplete_excludes hinv hfind (by simpa using hc0) y hy)

/-- C2: (a) the aggregation step preserves the invariant that at most
one candle per derived series is mutable and it is the most recent one;
(b) when the finalized base candle opens a new bucket while the most
recent entry is still mutable, the step first marks that entry complete
and broadcasts its completion before appending (and broadcasting) the new
open bucket, which becomes the series' most recent entry. -/
theorem C2_single_open_candle :
    (∀ (nowMs : Int) (maxC : Nat) (tf : TimeFrame) (nc : CandleData)
       (data : List CandleData), SeriesInv data →
       SeriesInv (aggStep nowMs maxC tf nc data).1) ∧
    (∀ (nowMs : Int) (maxC : Nat) (tf : TimeFrame) (nc : CandleData)
       (data : List CandleData) (last : CandleData),
       data.find? (fun c => c.timestamp == NormalizeTimestamp tf nc.timestamp) =
         none →
       data.getLast? = some last →
       last.isComplete = false →
       (aggStep nowMs maxC tf nc data).2 =
         [⟨"update", { last with isComplete := true }, tf⟩,
          ⟨"new", seedCandle tf nc, tf⟩] ∧
       (aggStep nowMs maxC tf nc data).1.getLast? = some (seedCandle tf nc)) := by
  constructor
  · exact fun nowMs maxC tf nc data hinv =>
      aggStep_SeriesInv nowMs maxC tf nc data hinv
  · intro nowMs maxC tf nc data last hfind hlast hincomp
    have hmark : markLastComplete data =
        (data.dropLast ++ [{ last with isComplete := true }],
         some { last with isComplete := true }) := by
      unfold markLastComplete
      rw [hlast]
      dsimp only
      rw [if_neg (by simp [hincomp])]
    constructor
    · simp [aggStep, hfind, hmark]
    · simp only [aggStep, hfind, hmark]
      by_cases hlen :
          ((data.dropLast ++ [{ last with isComplete := true }]) ++
            [seedCandle tf nc]).length > maxC
      · rw [if_pos hlen]
        have h1 : (1 : Nat) ≤ (data.dropLast ++ [{ last with isComplete := true }]).length := by
          rw [List.length_append]
          simp
        rw [List.drop_append_of_le_length h1]
        exact List.getLast?_concat _
      · rw [if_neg hlen]
        exact List.getLast?_concat _

/-- Mutable previous-bucket candle for the C2 witness. -/
def candleC : CandleData := ⟨0, 1, 1, 1, 1, false, 0⟩

/-- Finalized base candle in the next 5-minute bucket. -/
def candleD : CandleData := ⟨300000, 2, 3, 1, 2, true, 5⟩

/-- Witness for C2: a series whose last entry is mutable receives a base
candle of a fresh bucket. -/
theorem C2_witness :
    SeriesInv [candleC] ∧
    SeriesInv (aggStep 0 100 .TimeFrame5Min candleD [candleC]).1 ∧
    ([candleC].find? (fun c => c.timestamp ==
        NormalizeTimestamp .TimeFrame5Min candleD.timestamp) = none ∧
     [candleC].getLast? = some candleC ∧
     candleC.isComplete = false) ∧
    ((aggStep 0 100 .TimeFrame5Min candleD [candleC]).2 =
       [⟨"update", { candleC with isComplete := true }, .TimeFrame5Min⟩,
        ⟨"new", seedCandle .TimeFrame5Min candleD, .TimeFrame5Min⟩] ∧
     (aggStep 0 100 .TimeFrame5Min candleD [candleC]).1.getLast? =
       some (seedCandle .TimeFrame5Min candleD)) :=
  ⟨by simp [SeriesInv],
   C2_single_open_candle.1 0 100 .TimeFrame5Min candleD [candleC] (by simp [SeriesInv]),
   ⟨by decide, rfl, rfl⟩,
   C2_single_open_candle.2 0 100 .TimeFrame5Min candleD [candleC] candleC
     (by decide) rfl rfl⟩

/-- Client handle (Go `*websocket.Conn`), identified abstractly. -/
abbrev Client := Nat

/-- Outcome of one `broadcastToClients` call: either the loop finished,
or it blocked forever inside the loop. Both carry the clients that had
received the message so far and the registry contents at that point. -/
inductive BroadcastOutcome where
  | completed (delivered : List Client) (registry : List Client)
  | deadlocked (delivered : List Client) (registry : List Client)
deriving DecidableEq, Repr

/-- Models the client loop of `broadcastToClients`. The goroutine enters
the loop holding `clientsLock.RLock()` (released by `defer` only when the
function returns). `writeOk c = true` means `client.WriteMessage`
succeeds for `c`. On a failed write the Go code calls `client.Close()`
and then `ps.clientsLock.Lock()` while the same goroutine still holds
the read lock; a `sync.RWMutex` write lock waits until every read lock is
released, and the pending read lock belongs to this very goroutine, so
the acquisition can never succeed: the loop blocks before the `delete`,
never writes to the remaining clients, and never returns. -/
def broadcastLoop (writeOk : Client → Bool) (registry delivered : List Client) :
    List Client → BroadcastOutcome
  | [] => .completed delivered registry
  | c :: cs =>
    if writeOk c then broadcastLoop writeOk registry (delivered ++ [c]) cs
    else .deadlocked delivered registry

/-- Models `broadcastToClients` over the registry `clients`, iterated in
the given order (Go map iteration order is unspecified, so the order is a
parameter of the model). -/
def broadcastToClients (clients : List Client) (writeOk : Client → Bool) :
    BroadcastOutcome :=
  broadcastLoop writeOk clients [] clients

/-- C7 (code bug): two registered subscribers, the write to subscriber 1
fails. In iteration order `[1, 2]` the broadcast deadlocks before
delivering to subscriber 2 and with subscriber 1 still registered; in
order `[2, 1]` subscriber 2 is served first but the broadcast still
deadlocks with subscriber 1 still registered. In no order does the claimed
outcome (other subscriber served, failing subscriber removed, broadcast
finished) occur. -/
theorem C7_broadcast_deadlock :
    broadcastToClients [1, 2] (fun c => c != 1) =
      BroadcastOutcome.deadlocked [] [1, 2] ∧
    broadcastToClients [2, 1] (fun c => c != 1) =
      BroadcastOutcome.deadlocked [2] [2, 1] := by
  decide

/-- Minimal JSON value model for the persistence contract (numbers,
booleans, arrays, objects; the spec's persisted layout needs nothing
else). -/
inductive Json where
  | num (q : ℚ)
  | jbool (b : Bool)
  | arr (xs : List Json)
  | obj (fields : List (String × Json))

/-- First-match field lookup in a JSON object. -/
def jsonLookup (fields : List (String × Json)) (key : String) : Option Json :=
  match fields with
  | [] => none
  | (k, v) :: rest => if k = key then some v else jsonLookup rest key

/-- Models `json.Marshal` of one `CandleData` under the struct tags
`x`, `y`, `isComplete,omitempty`, `volume,omitempty`: the flag is omitted
when false and the volume when zero. -/
def encodeCandle (c : CandleData) : Json :=
  .obj ([("x", .num (c.timestamp : ℚ)),
         ("y", .arr [.num c.open_, .num c.high, .num c.low, .num c.close])]
    ++ (if c.isComplete then [("isComplete", .jbool true)] else [])
    ++ (if c.volume = 0 then [] else [("volume", .num c.volume)]))

/-- Models `json.Unmarshal` into one `CandleData`: missing optional
fields fall back to the zero values, a malformed record is an error. -/
def decodeCandle : Json → Option CandleData
  | .obj fields =>
    match jsonLookup fields "x" with
    | some (.num q) =>
      if q.den = 1 then
        match jsonLookup fields "y" with
        | some (.arr [.num o, .num h, .num l, .num c]) =>
          some ⟨q.num, o, h, l, c,
            (match jsonLookup fields "isComplete" with
             | some (.jbool b) => b
             | _ => false),
            (match jsonLookup fields "volume" with
             | some (.num v) => v
             | _ => 0)⟩
        | _ => none
      else none
    | _ => none
  | _ => none

/-- The persisted array of candle records, oldest first. -/
def encodeCandles (l : List CandleData) : Json := .arr (l.map encodeCandle)

/-- Element-wise decoding of a persisted candle array (Go `Unmarshal`
fails as a whole if any element is malformed). -/
def decodeCandleList : List Json → Option (List CandleData)
  | [] => some []
  | x :: xs =>
    match decodeCandle x with
    | none => none
    | some c =>
      match decodeCandleList xs with
      | none => none
      | some cs => some (c :: cs)

/-- Decoding of a persisted candle array. -/
def decodeCandles : Json → Option (List CandleData)
  | .arr xs => decodeCandleList xs
  | _ => none

theorem decodeCandle_encodeCandle (c : CandleData) :
    decodeCandle (encodeCandle c) = some c := by
  obtain ⟨ts, o, h, l, cl, ic, v⟩ := c
  unfold encodeCandle decodeCandle
  by_cases hic : ic = true <;> by_cases hv : v = 0 <;>
    simp [hic, hv, jsonLookup]

theorem decodeCandleList_encode (l : List CandleData) :
    decodeCandleList (l.map encodeCandle) = some l := by
  induction l with
  | nil => rfl
  | cons c cs ih => simp [decodeCandleList, decodeCandle_encodeCandle, ih]

theorem decodeCandles_encodeCandles (l : List CandleData) :
    decodeCandles (encodeCandles l) = some l := by
  simp [decodeCandles, encodeCandles, decodeCandleList_encode]

/-- The persisted files, one per timeframe
(`price_history_<tf>.json`); `none` models a missing file. -/
def FileSys := TimeFrame → Option Json

/-- Models `SaveTimeFrame`: an error (`none`) when the map has no entry
for the timeframe; otherwise marshal a copy trimmed to the most recent
`maxCandles` entries and atomically replace the file. -/
def SaveTimeFrame (ps : PriceService) (files : FileSys) (tf : TimeFrame) :
    Option FileSys :=
  match ps.timeFrameData tf with
  | none => none
  | some candles =>
    let candlesCopy :=
      if candles.length ≤ ps.maxCandles then candles
      else candles.drop (candles.length - ps.maxCandles)
    some (fun tf' =>
      if tf' = tf then some (encodeCandles candlesCopy) else files tf')

/-- Models `LoadTimeFrame`: an error when the file is missing or does
not decode; otherwise trim to `maxCandles` and store the sequence. -/
def LoadTimeFrame (ps : PriceService) (files : FileSys) (tf : TimeFrame) :
    Option PriceService :=
  match files tf with
  | none => none
  | some j =>
    match decodeCandles j with
    | none => none
    | some candles =>
      let candles1 :=
        if candles.length > ps.maxCandles then
          candles.drop (candles.length - ps.maxCandles)
        else candles
      some { ps with timeFrameData := setTF ps.timeFrameData tf candles1 }

/-- C8: for a stored sequence within the capacity bound, `SaveTimeFrame`
followed by `LoadTimeFrame` restores exactly the same ordered candle
sequence — timestamps, OHLC values, volumes and completeness flags —
into the store. -/
theorem C8_save_load_roundtrip (ps : PriceService) (files : FileSys)
    (tf : TimeFrame) (candles : List CandleData)
    (hdata : ps.timeFrameData tf = some candles)
    (hlen : candles.length ≤ ps.maxCandles) :
    ∃ files', SaveTimeFrame ps files tf = some files' ∧
      ∃ ps', LoadTimeFrame ps files' tf = some ps' ∧
        ps'.timeFrameData tf = some candles := by
  have hsave : SaveTimeFrame ps files tf =
      some (fun tf' =>
        if tf' = tf then some (encodeCandles candles) else files tf') := by
    simp only [SaveTimeFrame, hdata]
    rw [if_pos hlen]
  refine ⟨_, hsave, ?_⟩
  have hnot : ¬ candles.length > ps.maxCandles := by omega
  have hload : LoadTimeFrame ps
      (fun tf' => if tf' = tf then some (encodeCandles candles) else files tf') tf =
      some { ps with timeFrameData := setTF ps.timeFrameData tf candles } := by
    simp [LoadTimeFrame, decodeCandles_encodeCandles, hnot]
  refine ⟨_, hload, ?_⟩
  simp [setTF]

/-- Witness for C8 at a concrete one-candle store and an empty file
system. -/
theorem C8_witness :
    psHistoryEx.timeFrameData .TimeFrame1Min =
      some [⟨5000, 1, 1, 1, 1, true, 0⟩] ∧
    ([⟨5000, 1, 1, 1, 1, true, 0⟩] : List CandleData).length ≤
      psHistoryEx.maxCandles ∧
    ∃ files', SaveTimeFrame psHistoryEx (fun _ => none) .TimeFrame1Min =
        some files' ∧
      ∃ ps', LoadTimeFrame psHistoryEx files' .TimeFrame1Min = some ps' ∧
        ps'.timeFrameData .TimeFrame1Min = some [⟨5000, 1, 1, 1, 1, true, 0⟩] :=
  ⟨rfl, by decide,
   C8_save_load_roundtrip psHistoryEx (fun _ => none) .TimeFrame1Min
     [⟨5000, 1, 1, 1, 1, true, 0⟩] rfl (by decide)⟩

/-- The six `rand.Float64()` draws one iteration of the `Initialize`
generation loop consumes, in source order: price change, open offset,
high widening, low widening, the low-above-high repair draw, volume. -/
structure InitRand where
  rChange : ℚ
  rOpen : ℚ
  rHigh : ℚ
  rLow : ℚ
  rFix : ℚ
  rVolume : ℚ

/-- One iteration of the candle-generation loop in
`PriceService.Initialize` (base price 1.0, volatility 10.0, high/low
range `volatility * 0.5`, volume base 1000 with multiplier 1): returns
the generated candle and the new `lastClose`. -/
def initCandleStep (lastClose : ℚ) (ts : Int) (r : InitRand) : CandleData × ℚ :=
  let change := (r.rChange - 1/2) * 10
  let currentPrice0 := lastClose + change
  let currentPrice := if currentPrice0 < 0 then 0 else currentPrice0
  let open0 := lastClose + (r.rOpen - 1/2) * (10 * (1/10))
  let highLowRange := 10 * (1/2)
  let high0 := max open0 currentPrice + r.rHigh * highLowRange
  let low0 := min open0 currentPrice - r.rLow * highLowRange
  let low1 := if low0 > high0 then high0 - r.rFix * highLowRange * (1/10) else low0
  let volume := (goRound (r.rVolume * 1000 * 1 * 100) : ℚ) / 100
  (⟨ts, round2 open0, round2 high0, round2 low1, round2 currentPrice,
    true, volume⟩, round2 currentPrice)

/-- One index step of the `Initialize` generation loop: the candle `i`
minutes-ago timestamp is `now - (n-1-i)` minutes, truncated to Unix
seconds and normalized to its minute bucket. -/
def initGenStep (nowMs : Int) (n : Nat) (rands : Nat → InitRand)
    (acc : List CandleData × ℚ) (i : Nat) : List CandleData × ℚ :=
  let ts := NormalizeTimestamp .TimeFrame1Min
    (((nowMs - ((n : Int) - 1 - (i : Int)) * 60000).tdiv 1000) * 1000)
  let r := initCandleStep acc.2 ts (rands i)
  (acc.1 ++ [r.1], r.2)

/-- The `maxCandles` base candles `PriceService.Initialize` generates. -/
def InitializeGen (nowMs : Int) (n : Nat) (rands : Nat → InitRand) :
    List CandleData :=
  ((List.range n).foldl (initGenStep nowMs n rands) ([], 1)).1

/-- First-match association lookup (Go `groupedCandles[nts]`). -/
def assocLookup (m : List (Int × CandleData)) (k : Int) : Option CandleData :=
  match m with
  | [] => none
  | (k', v) :: rest => if k' = k then some v else assocLookup rest k

/-- First-match association update (Go `groupedCandles[nts] = updated`). -/
def assocReplace (k : Int) (v : CandleData) :
    List (Int × CandleData) → List (Int × CandleData)
  | [] => []
  | (k', v') :: rest =>
    if k' = k then (k', v) :: rest else (k', v') :: assocReplace k v rest

/-- One minute-candle step of the grouping loop in
`initializeHigherTimeframes`: seed a bucket on first sight, otherwise
merge (widen high/low, overwrite close, accumulate volume); derived
buckets from historical grouping are marked complete. The Go map is
modelled as an association list in first-insertion order (Go map
iteration order is unspecified; any admissible order carries the same
per-candle values). -/
def groupStep (tf : TimeFrame) (m : List (Int × CandleData))
    (candle : CandleData) : List (Int × CandleData) :=
  let nts := NormalizeTimestamp tf candle.timestamp
  match assocLookup m nts with
  | none =>
    m ++ [(nts, ⟨nts, candle.open_, candle.high, candle.low, candle.close,
                 true, candle.volume⟩)]
  | some existing => assocReplace nts (mergeCandle existing candle) m

/-- Models `PriceService.initializeHigherTimeframes`: derive each higher
granularity by grouping the 1-minute candles, then trim to capacity. -/
def initializeHigherTimeframes (ps : PriceService) : PriceService :=
  derivedTimeFrames.foldl
    (fun acc tf =>
      let grouped := ((ps.timeFrameData .TimeFrame1Min).getD []).foldl
        (groupStep tf) []
      let tfc := grouped.map Prod.snd
      let trimmed :=
        if tfc.length > acc.maxCandles then tfc.drop (tfc.length - acc.maxCandles)
        else tfc
      { acc with timeFrameData := setTF acc.timeFrameData tf trimmed })
    ps

/-- Models `PriceService.Initialize`: generate and store the base
series, then derive the higher timeframes (file saves only touch the
file system and are modelled by the persistence gateway). -/
def Initialize (nowMs : Int) (rands : Nat → InitRand) (ps : PriceService) :
    PriceService :=
  let candles := InitializeGen nowMs ps.maxCandles rands
  let ps1 : PriceService :=
    { ps with timeFrameData := setTF ps.timeFrameData .TimeFrame1Min candles }
  initializeHigherTimeframes ps1

/-- The per-candle OHLC invariant of the spec:
`low ≤ min(open, close, high)` and `high ≥ max(open, close, low)`. -/
def CandleOK (c : CandleData) : Prop :=
  c.low ≤ c.open_ ∧ c.low ≤ c.close ∧ c.low ≤ c.high ∧
  c.open_ ≤ c.high ∧ c.close ≤ c.high

/-- Every candle of a series satisfies the OHLC invariant. -/
def SeriesOK (l : List CandleData) : Prop := ∀ c ∈ l, CandleOK c

/-- Every candle owned by the service — in any timeframe series or in
the current-candle slot — satisfies the OHLC invariant. -/
def StateOK (ps : PriceService) : Prop :=
  (∀ tf, SeriesOK ((ps.timeFrameData tf).getD [])) ∧
  (∀ c, ps.currentCandle = some c → CandleOK c)

theorem if_gt_eq_max (a b : ℚ) : (if b > a then b else a) = max a b := by
  split_ifs with h
  · exact (max_eq_right (le_of_lt h)).symm
  · exact (max_eq_left (not_lt.1 h)).symm

theorem if_lt_eq_min (a b : ℚ) : (if b < a then b else a) = min a b := by
  split_ifs with h
  · exact (min_eq_right (le_of_lt h)).symm
  · exact (min_eq_left (not_lt.1 h)).symm

theorem mergeCandle_open (c nc : CandleData) :
    (mergeCandle c nc).open_ = c.open_ := rfl

theorem mergeCandle_close (c nc : CandleData) :
    (mergeCandle c nc).close = nc.close := rfl

theorem mergeCandle_OK {c nc : CandleData} (hc : CandleOK c) (hnc : CandleOK nc) :
    CandleOK (mergeCandle c nc) := by
  obtain ⟨h1, h2, h3, h4, h5⟩ := hc
  obtain ⟨g1, g2, g3, g4, g5⟩ := hnc
  unfold CandleOK
  rw [mergeCandle_low, mergeCandle_high, mergeCandle_open, mergeCandle_close]
  refine ⟨?_, ?_, ?_, ?_, ?_⟩
  · linarith [min_le_left c.low nc.low]
  · linarith [min_le_right c.low nc.low]
  · linarith [min_le_left c.low nc.low, le_max_left c.high nc.high]
  · linarith [le_max_left c.high nc.high]
  · linarith [le_max_right c.high nc.high]

theorem seedCandle_OK {nc : CandleData} (hnc : CandleOK nc) (tf : TimeFrame) :
    CandleOK (seedCandle tf nc) := hnc

theorem markComplete_OK {c : CandleData} (hc : CandleOK c) :
    CandleOK { c with isComplete := true } := hc

theorem goRound_mono {x y : ℚ} (h : x ≤ y) : goRound x ≤ goRound y := by
  unfold goRound
  rcases le_or_lt 0 x with hx | hx
  · rw [if_pos hx, if_pos (le_trans hx h)]
    exact Int.floor_mono (by linarith)
  · rcases le_or_lt 0 y with hy | hy
    · rw [if_neg (not_le.2 hx), if_pos hy]
      have h1 : (0 : Int) ≤ ⌊y + 1/2⌋ := Int.le_floor.mpr (by push_cast; linarith)
      have h2 : (0 : Int) ≤ ⌊-x + 1/2⌋ := Int.le_floor.mpr (by push_cast; linarith)
      omega
    · rw [if_neg (not_le.2 hx), if_neg (not_le.2 hy)]
      have : ⌊-y + 1/2⌋ ≤ ⌊-x + 1/2⌋ := Int.floor_mono (by linarith)
      omega

theorem round2_mono {x y : ℚ} (h : x ≤ y) : round2 x ≤ round2 y := by
  unfold round2
  have h1 : goRound (x * 100) ≤ goRound (y * 100) := goRound_mono (by linarith)
  have h2 : ((goRound (x * 100) : ℚ)) ≤ (goRound (y * 100) : ℚ) := by exact_mod_cast h1
  linarith

theorem initBounds {a b g l : ℚ} (hg : 0 ≤ g) (hl : 0 ≤ l) :
    min a b - l * (10 * (1/2)) ≤ a ∧
    min a b - l * (10 * (1/2)) ≤ b ∧
    a ≤ max a b + g * (10 * (1/2)) ∧
    b ≤ max a b + g * (10 * (1/2)) ∧
    min a b - l * (10 * (1/2)) ≤ max a b + g * (10 * (1/2)) := by
  have h1 := min_le_left a b
  have h2 := min_le_right a b
  have h3 := le_max_left a b
  have h4 := le_max_right a b
  have h5 : (0 : ℚ) ≤ l * (10 * (1/2)) := by nlinarith
  have h6 : (0 : ℚ) ≤ g * (10 * (1/2)) := by nlinarith
  exact ⟨by linarith, by linarith, by linarith, by linarith, by linarith⟩

theorem initCandleStep_OK (lastClose : ℚ) (ts : Int) (r : InitRand)
    (hrh : 0 ≤ r.rHigh) (hrl : 0 ≤ r.rLow) :
    CandleOK (initCandleStep lastClose ts r).1 := by
  unfold initCandleStep
  dsimp only
  obtain ⟨e1, e2, e3, e4, e5⟩ :=
    @initBounds (lastClose + (r.rOpen - 1/2) * (10 * (1/10)))
      (if lastClose + (r.rChange - 1/2) * 10 < 0 then (0 : ℚ)
       else lastClose + (r.rChange - 1/2) * 10)
      r.rHigh r.rLow hrh hrl
  rw [if_neg (not_lt.2 e5)]
  exact ⟨round2_mono e1, round2_mono e2, round2_mono e5,
         round2_mono e3, round2_mono e4⟩

theorem mem_replaceFirstMatch {b : Int} {v : CandleData} :
    ∀ {l : List CandleData} {x : CandleData},
      x ∈ replaceFirstMatch b v l → x ∈ l ∨ x = v := by
  intro l
  induction l with
  | nil => intro x hx; simp [replaceFirstMatch] at hx
  | cons a as ih =>
    intro x hx
    rw [replaceFirstMatch] at hx
    split at hx
    · rcases List.mem_cons.1 hx with rfl | hx2
      · exact Or.inr rfl
      · exact Or.inl (List.mem_cons.2 (Or.inr hx2))
    · rcases List.mem_cons.1 hx with rfl | hx2
      · exact Or.inl (List.mem_cons.2 (Or.inl rfl))
      · rcases ih hx2 with h | h
        · exact Or.inl (List.mem_cons.2 (Or.inr h))
        · exact Or.inr h

theorem assocLookup_mem {m : List (Int × CandleData)} {k : Int} {v : CandleData}
    (h : assocLookup m k = some v) : ∃ k', (k', v) ∈ m := by
  induction m with
  | nil => simp [assocLookup] at h
  | cons p rest ih =>
    rw [assocLookup] at h
    split at h
    · injection h with h
      refine ⟨p.1, ?_⟩
      rw [← h]
      simp
    · obtain ⟨k', hk'⟩ := ih h
      exact ⟨k', List.mem_cons.2 (Or.inr hk')⟩

theorem mem_assocReplace {k : Int} {v : CandleData} :
    ∀ {m : List (Int × CandleData)} {x : Int × CandleData},
      x ∈ assocReplace k v m → x ∈ m ∨ x.2 = v := by
  intro m
  induction m with
  | nil => intro x hx; simp [assocReplace] at hx
  | cons p rest ih =>
    intro x hx
    rw [assocReplace] at hx
    split at hx
    · rcases List.mem_cons.1 hx with rfl | hx2
      · exact Or.inr rfl
      · exact Or.inl (List.mem_cons.2 (Or.inr hx2))
    · rcases List.mem_cons.1 hx with rfl | hx2
      · exact Or.inl (List.mem_cons.2 (Or.inl rfl))
      · rcases ih hx2 with h | h
        · exact Or.inl (List.mem_cons.2 (Or.inr h))
        · exact Or.inr h

theorem SeriesOK_drop {l : List CandleData} (h : SeriesOK l) (n : Nat) :
    SeriesOK (l.drop n) :=
  fun c hc => h c (List.mem_of_mem_drop hc)

theorem SeriesOK_append {l1 l2 : List CandleData}
    (h1 : SeriesOK l1) (h2 : SeriesOK l2) : SeriesOK (l1 ++ l2) := by
  intro c hc
  rcases List.mem_append.1 hc with h | h
  · exact h1 c h
  · exact h2 c h

theorem StateOK_setTF {ps : PriceService} (hps : StateOK ps) (tf : TimeFrame)
    {l : List CandleData} (hl : SeriesOK l) :
    StateOK { ps with timeFrameData := setTF ps.timeFrameData tf l } := by
  constructor
  · intro tf'
    by_cases h : tf' = tf
    · subst h
      simpa [setTF] using hl
    · simpa [setTF, h] using hps.1 tf'
  · exact hps.2

theorem aggStep_SeriesOK (nowMs : Int) (maxC : Nat) (tf : TimeFrame)
    (nc : CandleData) (data : List CandleData)
    (hnc : CandleOK nc) (hdata : SeriesOK data) :
    SeriesOK (aggStep nowMs maxC tf nc data).1 := by
  unfold SeriesOK at *
  cases hfind : data.find?
      (fun c => c.timestamp == NormalizeTimestamp tf nc.timestamp) with
  | none =>
    simp only [aggStep, hfind]
    have hmarked : ∀ c ∈ (markLastComplete data).1, CandleOK c := by
      intro c hc
      rcases mem_markLastComplete hc with h | ⟨y, hy, rfl⟩
      · exact hdata c h
      · exact markComplete_OK (hdata y hy)
    intro c hc
    split at hc
    · rcases List.mem_append.1 (List.mem_of_mem_drop hc) with h | h
      · exact hmarked c h
      · rw [List.mem_singleton] at h
        subst h
        exact seedCandle_OK hnc tf
    · rcases List.mem_append.1 hc with h | h
      · exact hmarked c h
      · rw [List.mem_singleton] at h
        subst h
        exact seedCandle_OK hnc tf
  | some c0 =>
    simp only [aggStep, hfind]
    have hc0 : CandleOK c0 := hdata c0 (List.mem_of_find?_eq_some hfind)
    intro x hx
    rcases mem_replaceFirstMatch hx with h | rfl
    · exact hdata x h
    · split
      · exact markComplete_OK (mergeCandle_OK hc0 hnc)
      · exact mergeCandle_OK hc0 hnc

theorem foldl_agg_StateOK (nowMs : Int) (nc : CandleData) (hnc : CandleOK nc) :
    ∀ (tfs : List TimeFrame) (ps : PriceService), StateOK ps →
      StateOK (tfs.foldl
        (fun acc tf =>
          { acc with
            timeFrameData :=
              setTF acc.timeFrameData tf
                (aggStep nowMs acc.maxCandles tf nc
                  ((acc.timeFrameData tf).getD [])).1 }) ps) := by
  intro tfs
  induction tfs with
  | nil => intro ps h; exact h
  | cons tf tfs ih =>
    intro ps hps
    rw [List.foldl_cons]
    apply ih
    exact StateOK_setTF hps tf
      (aggStep_SeriesOK nowMs ps.maxCandles tf nc _ hnc (hps.1 tf))

theorem updateHigherTimeframes_StateOK (nowMs : Int) (nc : CandleData)
    (ps : PriceService) (hnc : CandleOK nc) (hps : StateOK ps) :
    StateOK (updateHigherTimeframes nowMs nc ps) :=
  foldl_agg_StateOK nowMs nc hnc derivedTimeFrames ps hps

theorem StartNewCandle_StateOK (nowMs : Int) (rc rv : ℚ) (ps : PriceService)
    (hps : StateOK ps) : StateOK (StartNewCandle nowMs rc rv ps).1 := by
  constructor
  · exact hps.1
  · intro c hc
    unfold StartNewCandle at hc
    dsimp only at hc
    injection hc with hc
    subst hc
    exact ⟨le_refl _, le_refl _, le_refl _, le_refl _, le_refl _⟩

theorem tick_OK (c : CandleData) (x v : ℚ) (hc : CandleOK c) :
    CandleOK { c with high := (if x > c.high then x else c.high),
                      low := (if x < c.low then x else c.low),
                      close := x, volume := v } := by
  obtain ⟨h1, h2, h3, h4, h5⟩ := hc
  unfold CandleOK
  dsimp only
  rw [if_gt_eq_max, if_lt_eq_min]
  refine ⟨?_, ?_, ?_, ?_, ?_⟩
  · linarith [min_le_left c.low x]
  · linarith [min_le_right c.low x]
  · linarith [min_le_left c.low x, le_max_left c.high x]
  · linarith [le_max_left c.high x]
  · linarith [le_max_right c.high x]

theorem UpdateCurrentCandle_StateOK (nowMs : Int)
    (r1 r2 r3 r4 r5 : ℚ) (ps : PriceService) (hps : StateOK ps) :
    StateOK (UpdateCurrentCandle nowMs r1 r2 r3 r4 r5 ps) := by
  unfold UpdateCurrentCandle
  cases hcur : ps.currentCandle with
  | none => exact StartNewCandle_StateOK nowMs r1 r2 ps hps
  | some cur =>
    dsimp only
    constructor
    · exact hps.1
    · intro c hc
      dsimp only at hc
      injection hc with hc
      subst hc
      exact tick_OK cur _ _ (hps.2 cur hcur)

theorem FinalizeCurrentCandle_StateOK (nowMs : Int) (ps : PriceService)
    (hps : StateOK ps) : StateOK (FinalizeCurrentCandle nowMs ps) := by
  unfold FinalizeCurrentCandle
  cases hcur : ps.currentCandle with
  | none => exact hps
  | some cur =>
    dsimp only
    have hcurOK : CandleOK cur := hps.2 cur hcur
    have hb1 : SeriesOK ((ps.timeFrameData .TimeFrame1Min).getD [] ++
        [{ cur with isComplete := true }]) := by
      refine SeriesOK_append (hps.1 _) ?_
      intro c hc
      rw [List.mem_singleton] at hc
      subst hc
      exact markComplete_OK hcurOK
    have hb2 : SeriesOK (if ((ps.timeFrameData .TimeFrame1Min).getD [] ++
          [{ cur with isComplete := true }]).length > ps.maxCandles then
        ((ps.timeFrameData .TimeFrame1Min).getD [] ++
          [{ cur with isComplete := true }]).drop 1
      else (ps.timeFrameData .TimeFrame1Min).getD [] ++
        [{ cur with isComplete := true }]) := by
      split
      · exact SeriesOK_drop hb1 1
      · exact hb1
    have hps2 := updateHigherTimeframes_StateOK nowMs
      { cur with isComplete := true } _ (markComplete_OK hcurOK)
      (StateOK_setTF hps .TimeFrame1Min hb2)
    exact ⟨hps2.1, fun c hc => absurd hc (by simp)⟩

theorem foldl_initGen_OK (nowMs : Int) (n : Nat) (rands : Nat → InitRand)
    (hr : ∀ i, 0 ≤ (rands i).rHigh ∧ 0 ≤ (rands i).rLow) :
    ∀ (idxs : List Nat) (acc : List CandleData × ℚ),
      (∀ c ∈ acc.1, CandleOK c) →
      ∀ c ∈ (idxs.foldl (initGenStep nowMs n rands) acc).1, CandleOK c := by
  intro idxs
  induction idxs with
  | nil => intro acc hacc; exact hacc
  | cons i is ih =>
    intro acc hacc
    rw [List.foldl_cons]
    apply ih
    intro c hc
    unfold initGenStep at hc
    dsimp only at hc
    rcases List.mem_append.1 hc with h | h
    · exact hacc c h
    · rw [List.mem_singleton] at h
      subst h
      exact initCandleStep_OK _ _ _ (hr i).1 (hr i).2

theorem InitializeGen_OK (nowMs : Int) (n : Nat) (rands : Nat → InitRand)
    (hr : ∀ i, 0 ≤ (rands i).rHigh ∧ 0 ≤ (rands i).rLow) :
    SeriesOK (InitializeGen nowMs n rands) := by
  intro c hc
  exact foldl_initGen_OK nowMs n rands hr (List.range n) ([], 1)
    (by intro x hx; simp at hx) c hc

/-- Per-entry OHLC invariant for the grouping map of
`initializeHigherTimeframes`. -/
def AssocOK (m : List (Int × CandleData)) : Prop := ∀ p ∈ m, CandleOK p.2

theorem groupStep_AssocOK (tf : TimeFrame) {m : List (Int × CandleData)}
    {candle : CandleData} (hm : AssocOK m) (hc : CandleOK candle) :
    AssocOK (groupStep tf m candle) := by
  intro p hp
  unfold groupStep at hp
  dsimp only at hp
  cases hl : assocLookup m (NormalizeTimestamp tf candle.timestamp) with
  | none =>
    rw [hl] at hp
    dsimp only at hp
    rcases List.mem_append.1 hp with h | h
    · exact hm p h
    · rw [List.mem_singleton] at h
      subst h
      exact hc
  | some existing =>
    rw [hl] at hp
    dsimp only at hp
    rcases mem_assocReplace hp with h | h
    · exact hm p h
    · rw [h]
      obtain ⟨k', hk'⟩ := assocLookup_mem hl
      exact mergeCandle_OK (hm (k', existing) hk') hc

theorem foldl_groupStep_AssocOK (tf : TimeFrame) :
    ∀ (candles : List CandleData) (m : List (Int × CandleData)),
      SeriesOK candles → AssocOK m →
      AssocOK (candles.foldl (groupStep tf) m) := by
  intro candles
  induction candles with
  | nil => intro m _ hm; exact hm
  | cons c cs ih =>
    intro m hcs hm
    rw [List.foldl_cons]
    exact ih _ (fun x hx => hcs x (List.mem_cons.2 (Or.inr hx)))
      (groupStep_AssocOK tf hm (hcs c (by simp)))

theorem initializeHigherTimeframes_StateOK (ps : PriceService)
    (hps : StateOK ps) : StateOK (initializeHigherTimeframes ps) := by
  unfold initializeHigherTimeframes
  suffices h : ∀ (tfs : List TimeFrame) (acc : PriceService), StateOK acc →
      StateOK (tfs.foldl
        (fun acc tf =>
          let grouped := ((ps.timeFrameData .TimeFrame1Min).getD []).foldl
            (groupStep tf) []
          let tfc := grouped.map Prod.snd
          let trimmed :=
            if tfc.length > acc.maxCandles then
              tfc.drop (tfc.length - acc.maxCandles)
            else tfc
          { acc with timeFrameData := setTF acc.timeFrameData tf trimmed }) acc)
    from h derivedTimeFrames ps hps
  intro tfs
  induction tfs with
  | nil => intro acc h; exact h
  | cons tf tfs ih =>
    intro acc hacc
    rw [List.foldl_cons]
    apply ih
    have hgrp : AssocOK (((ps.timeFrameData .TimeFrame1Min).getD []).foldl
        (groupStep tf) []) :=
      foldl_groupStep_AssocOK tf _ [] (hps.1 _) (by intro p hp; simp at hp)
    have hser : SeriesOK ((((ps.timeFrameData .TimeFrame1Min).getD []).foldl
        (groupStep tf) []).map Prod.snd) := by
      intro c hc
      obtain ⟨p, hp, rfl⟩ := List.mem_map.1 hc
      exact hgrp p hp
    have htrim : SeriesOK (if ((((ps.timeFrameData .TimeFrame1Min).getD
            []).foldl (groupStep tf) []).map Prod.snd).length > acc.maxCandles
        then ((((ps.timeFrameData .TimeFrame1Min).getD []).foldl (groupStep tf)
            []).map Prod.snd).drop
          (((((ps.timeFrameData .TimeFrame1Min).getD []).foldl (groupStep tf)
            []).map Prod.snd).length - acc.maxCandles)
        else (((ps.timeFrameData .TimeFrame1Min).getD []).foldl (groupStep tf)
          []).map Prod.snd) := by
      split
      · exact SeriesOK_drop hser _
      · exact hser
    exact StateOK_setTF hacc tf htrim

theorem Initialize_StateOK (nowMs : Int) (rands : Nat → InitRand)
    (ps : PriceService)
    (hr : ∀ i, 0 ≤ (rands i).rHigh ∧ 0 ≤ (rands i).rLow)
    (hps : StateOK ps) : StateOK (Initialize nowMs rands ps) := by
  unfold Initialize
  exact initializeHigherTimeframes_StateOK _
    (StateOK_setTF hps .TimeFrame1Min (InitializeGen_OK nowMs ps.maxCandles rands hr))

/-- The mutating operations of the service that the candle invariant is
stated over, each carrying its wall-clock reading and random draws. -/
inductive ServiceOp where
  | startNew (nowMs : Int) (rChange rVolume : ℚ)
  | updateCur (nowMs : Int) (rStartChange rStartVolume rVolatility rChange rVolInc : ℚ)
  | finalizeCur (nowMs : Int)
  | initHistory (nowMs : Int) (rands : Nat → InitRand)

/-- Applying one mutating operation to the service state. -/
def applyOp : ServiceOp → PriceService → PriceService
  | .startNew nowMs rc rv, ps => (StartNewCandle nowMs rc rv ps).1
  | .updateCur nowMs r1 r2 r3 r4 r5, ps =>
    UpdateCurrentCandle nowMs r1 r2 r3 r4 r5 ps
  | .finalizeCur nowMs, ps => FinalizeCurrentCandle nowMs ps
  | .initHistory nowMs rands, ps => Initialize nowMs rands ps

/-- The contract of `rand.Float64()`: a draw lies in `[0, 1)`. -/
def RandOK (r : ℚ) : Prop := 0 ≤ r ∧ r < 1

/-- Every random draw an operation carries satisfies the
`rand.Float64()` contract. -/
def OpValid : ServiceOp → Prop
  | .startNew _ rc rv => RandOK rc ∧ RandOK rv
  | .updateCur _ r1 r2 r3 r4 r5 =>
    RandOK r1 ∧ RandOK r2 ∧ RandOK r3 ∧ RandOK r4 ∧ RandOK r5
  | .finalizeCur _ => True
  | .initHistory _ rands => ∀ i,
    RandOK (rands i).rChange ∧ RandOK (rands i).rOpen ∧
    RandOK (rands i).rHigh ∧ RandOK (rands i).rLow ∧
    RandOK (rands i).rFix ∧ RandOK (rands i).rVolume

/-- C9: every mutating operation of the service — `StartNewCandle`,
`UpdateCurrentCandle`, `FinalizeCurrentCandle` with its aggregation
update, and `Initialize` — preserves the per-candle OHLC invariant
`low ≤ min(open, close, high)` and `high ≥ max(open, close, low)` for
every candle in every timeframe series and in the current-candle slot. -/
theorem C9_ohlc_invariant (op : ServiceOp) (ps : PriceService)
    (hop : OpValid op) (hps : StateOK ps) : StateOK (applyOp op ps) := by
  cases op with
  | startNew nowMs rc rv => exact StartNewCandle_StateOK nowMs rc rv ps hps
  | updateCur nowMs r1 r2 r3 r4 r5 =>
    exact UpdateCurrentCandle_StateOK nowMs r1 r2 r3 r4 r5 ps hps
  | finalizeCur nowMs => exact FinalizeCurrentCandle_StateOK nowMs ps hps
  | initHistory nowMs rands =>
    refine Initialize_StateOK nowMs rands ps (fun i => ?_) hps
    obtain ⟨_, _, hh, hl, _, _⟩ := hop i
    exact ⟨hh.1, hl.1⟩

theorem psEmptyBase_StateOK : StateOK psEmptyBase := by
  constructor
  · intro tf
    cases tf <;> (intro c hc; simp [psEmptyBase, setTF] at hc)
  · intro c hc
    simp [psEmptyBase] at hc

/-- Witness for C9: the start-new-candle operation with draws 1/2 on the
empty service. -/
theorem C9_witness :
    OpValid (ServiceOp.startNew 0 (1/2) (1/2)) ∧
    StateOK psEmptyBase ∧
    StateOK (applyOp (ServiceOp.startNew 0 (1/2) (1/2)) psEmptyBase) :=
  ⟨⟨⟨by norm_num, by norm_num⟩, ⟨by norm_num, by norm_num⟩⟩,
   psEmptyBase_StateOK,
   C9_ohlc_invariant (ServiceOp.startNew 0 (1/2) (1/2)) psEmptyBase
     ⟨⟨by norm_num, by norm_num⟩, ⟨by norm_num, by norm_num⟩⟩
     psEmptyBase_StateOK⟩

end Seedventure
